import Mathlib

/-!
Verification of the xstream SSE streaming parser.

Strings are embedded as `List Char` (one entry per Unicode code point, matching
the JavaScript string operations used by the repository on the texts considered
here).  The three pipeline stages are embedded as executable Lean functions:

* `splitStreamTransform` / `splitStreamFlush` / `runSplitter` embed
  `src/combine/splitStream.ts` (the part splitter, a `TransformStream` with a
  mutable `buffer`);
* `parseLineKV` / `splitPartStep` / `runSplitPart` embed `splitPart`
  (`example/index.ts`, the part parser);
* `xstreamLoop` / `runXStream` embed the async-iteration wrapper installed by
  `XStream` (`src/core/xstream.ts`), producing the trace of lifecycle events
  of one fully drained iteration session.

The decode stage (`TextDecoderStream`) is out of scope per the specification;
the pipeline is modelled from decoded text fragments onward.
-/

/-- JavaScript whitespace (the characters removed by `String.prototype.trim`:
`WhiteSpace` plus `LineTerminator` code points). -/
def isJsWhitespace (c : Char) : Bool :=
  c = '\t' || c = '\n' || c = '\x0b' || c = '\x0c' || c = '\r' || c = ' ' ||
  c = '\u00a0' || c = '\u1680' || ('\u2000' ≤ c && c ≤ '\u200a') ||
  c = '\u2028' || c = '\u2029' || c = '\u202f' || c = '\u205f' ||
  c = '\u3000' || c = '\ufeff'

/-- `String.prototype.trim`: remove leading and trailing whitespace. -/
def jsTrim (s : List Char) : List Char :=
  ((s.dropWhile isJsWhitespace).reverse.dropWhile isJsWhitespace).reverse

/-- Leftmost occurrence of `sep` in `s`: returns `some (pre, post)` with
`s = pre ++ sep ++ post` and no occurrence of `sep` starting inside `pre`. -/
def findSep (sep : List Char) : List Char → Option (List Char × List Char)
  | [] => none
  | c :: rest =>
    if sep.isPrefixOf (c :: rest) then some ([], (c :: rest).drop sep.length)
    else
      match findSep sep rest with
      | none => none
      | some (b, a) => some (c :: b, a)

/-- Fuel-driven worker for splitting on every occurrence of a (non-empty)
separator, leftmost first and non-overlapping, as `String.prototype.split`
does for a non-empty string separator. -/
def splitFuelAux (sep : List Char) : Nat → List Char → List (List Char)
  | 0, s => [s]
  | fuel + 1, s =>
    match findSep sep s with
    | none => [s]
    | some (b, a) => b :: splitFuelAux sep fuel a

/-- Split `s` on every occurrence of the non-empty separator `sep`
(`s.length + 1` fuel always suffices when `sep ≠ []`). -/
def splitNE (sep s : List Char) : List (List Char) :=
  splitFuelAux sep (s.length + 1) s

/-- `String.prototype.split` with a string separator: the empty separator
splits into single code points, a non-empty separator splits on its
occurrences. -/
def jsSplit (sep s : List Char) : List (List Char) :=
  if sep = [] then s.map (fun c => [c]) else splitNE sep s

/-- `String.prototype.indexOf` restricted to its use in `splitPart`:
`some i` is the index of the first occurrence of `pat`, `none` is `-1`.
(An empty search string is found at index 0.) -/
def jsIndexOf (s pat : List Char) : Option Nat :=
  if pat = [] then some 0
  else
    match findSep pat s with
    | none => none
    | some (b, _) => some b.length

section SplitLemmas

variable {sep : List Char}

theorem isPrefixOfIff {p l : List Char} : p.isPrefixOf l = true ↔ p <+: l :=
  List.isPrefixOf_iff_prefix

theorem findSep_eq_append {s b a : List Char} (h : findSep sep s = some (b, a)) :
    s = b ++ sep ++ a := by
  induction s generalizing b a with
  | nil => simp [findSep] at h
  | cons c rest ih =>
    rw [findSep] at h
    by_cases hp : sep.isPrefixOf (c :: rest)
    · rw [if_pos hp] at h
      obtain ⟨t, ht⟩ := isPrefixOfIff.mp hp
      injection h with h1
      injection h1 with hb ha
      subst hb
      rw [← ht, List.drop_left] at ha
      simp [← ht, ha]
    · rw [if_neg hp] at h
      cases hrest : findSep sep rest with
      | none => rw [hrest] at h; exact absurd h (by simp)
      | some p =>
        obtain ⟨b0, a0⟩ := p
        rw [hrest] at h
        injection h with h1
        injection h1 with hb ha
        subst hb; subst ha
        have := ih hrest
        simp [this]

theorem findSep_none_of_before {s b a : List Char} (h : findSep sep s = some (b, a)) :
    findSep sep b = none := by
  induction s generalizing b a with
  | nil => simp [findSep] at h
  | cons c rest ih =>
    rw [findSep] at h
    by_cases hp : sep.isPrefixOf (c :: rest)
    · rw [if_pos hp] at h
      injection h with h1
      injection h1 with hb _
      subst hb
      rfl
    · rw [if_neg hp] at h
      cases hrest : findSep sep rest with
      | none => rw [hrest] at h; exact absurd h (by simp)
      | some p =>
        obtain ⟨b0, a0⟩ := p
        rw [hrest] at h
        injection h with h1
        injection h1 with hb ha
        subst hb
        have hb0 : findSep sep b0 = none := ih hrest
        rw [findSep]
        have hnp : ¬ sep.isPrefixOf (c :: b0) := by
          intro hyes
          apply hp
          have hpre : sep <+: (c :: b0) := isPrefixOfIff.mp hyes
          have hre : rest = b0 ++ sep ++ a0 := findSep_eq_append hrest
          apply isPrefixOfIff.mpr
          obtain ⟨t, ht⟩ := hpre
          refine ⟨t ++ sep ++ a0, ?_⟩
          rw [hre]
          rw [show c :: (b0 ++ sep ++ a0) = (c :: b0) ++ sep ++ a0 by simp]
          rw [← ht]
          simp
        rw [if_neg hnp, hb0]

theorem findSep_length_lt {s b a : List Char} (hsep : sep ≠ [])
    (h : findSep sep s = some (b, a)) : a.length < s.length := by
  have he := findSep_eq_append h
  have hlen := congrArg List.length he
  simp [List.length_append] at hlen
  have : 0 < sep.length := List.length_pos.mpr hsep
  omega

theorem take_append_left {α : Type} (l1 l2 : List α) {n : Nat} (h : n ≤ l1.length) :
    (l1 ++ l2).take n = l1.take n := by
  rw [List.take_append_eq_append_take]
  have : n - l1.length = 0 := by omega
  simp [this]

theorem drop_append_left {α : Type} (l1 l2 : List α) {n : Nat} (h : n ≤ l1.length) :
    (l1 ++ l2).drop n = l1.drop n ++ l2 := by
  rw [List.drop_append_eq_append_drop]
  have : n - l1.length = 0 := by omega
  simp [this]

theorem isPrefixOf_append_iff {p l : List Char} (l2 : List Char)
    (h : p.length ≤ l.length) :
    p.isPrefixOf (l ++ l2) = p.isPrefixOf l := by
  by_cases hp : p <+: l
  · have h1 : p <+: l ++ l2 := by
      obtain ⟨t, ht⟩ := hp
      exact ⟨t ++ l2, by rw [← ht]; simp⟩
    rw [isPrefixOfIff.mpr hp, isPrefixOfIff.mpr h1]
  · have h2 : ¬ p <+: l ++ l2 := by
      intro hyes
      apply hp
      obtain ⟨t, ht⟩ := hyes
      have hteq : p = (l ++ l2).take p.length := by
        rw [← ht, take_append_left p t (le_refl p.length), List.take_length]
      rw [take_append_left _ _ h] at hteq
      refine ⟨l.drop p.length, ?_⟩
      nth_rewrite 1 [hteq]
      exact List.take_append_drop p.length l
    have e1 : p.isPrefixOf (l ++ l2) = false := by
      cases hb : p.isPrefixOf (l ++ l2)
      · rfl
      · exact absurd (isPrefixOfIff.mp hb) h2
    have e2 : p.isPrefixOf l = false := by
      cases hb : p.isPrefixOf l
      · rfl
      · exact absurd (isPrefixOfIff.mp hb) hp
    rw [e1, e2]

theorem findSep_append {s b a : List Char} (c : List Char)
    (h : findSep sep s = some (b, a)) :
    findSep sep (s ++ c) = some (b, a ++ c) := by
  induction s generalizing b a with
  | nil => simp [findSep] at h
  | cons x rest ih =>
    rw [findSep] at h
    by_cases hp : sep.isPrefixOf (x :: rest)
    · rw [if_pos hp] at h
      injection h with h1
      injection h1 with hb ha
      subst hb
      have hple : sep.length ≤ (x :: rest).length := (isPrefixOfIff.mp hp).length_le
      have hcond : sep.isPrefixOf ((x :: rest) ++ c) = sep.isPrefixOf (x :: rest) :=
        isPrefixOf_append_iff c hple
      rw [List.cons_append, findSep, ← List.cons_append, hcond, if_pos hp]
      rw [drop_append_left _ _ hple, ha]
    · rw [if_neg hp] at h
      cases hrest : findSep sep rest with
      | none => rw [hrest] at h; exact absurd h (by simp)
      | some p =>
        obtain ⟨b0, a0⟩ := p
        rw [hrest] at h
        injection h with h1
        injection h1 with hb ha
        subst hb; subst ha
        have hlenrest : sep.length ≤ rest.length := by
          have he := findSep_eq_append hrest
          have hl := congrArg List.length he
          simp [List.length_append] at hl
          omega
        have hple : sep.length ≤ (x :: rest).length := by
          simp only [List.length_cons]
          omega
        have hcond : sep.isPrefixOf ((x :: rest) ++ c) = sep.isPrefixOf (x :: rest) :=
          isPrefixOf_append_iff c hple
        rw [List.cons_append, findSep, ← List.cons_append, hcond, if_neg hp]
        rw [ih hrest]

theorem splitFuelAux_ne_nil (fuel : Nat) (s : List Char) :
    splitFuelAux sep fuel s ≠ [] := by
  cases fuel with
  | zero => simp [splitFuelAux]
  | succ n =>
    rw [splitFuelAux]
    cases findSep sep s with
    | none => simp
    | some p => obtain ⟨b, a⟩ := p; simp

theorem splitNE_ne_nil (s : List Char) : splitNE sep s ≠ [] :=
  splitFuelAux_ne_nil _ s

theorem splitFuelAux_congr (hsep : sep ≠ []) :
    ∀ f g s, s.length < f → s.length < g →
      splitFuelAux sep f s = splitFuelAux sep g s := by
  intro f
  induction f with
  | zero => intro g s hf; omega
  | succ n ih =>
    intro g s hf hg
    cases g with
    | zero => omega
    | succ m =>
      rw [splitFuelAux, splitFuelAux]
      cases hfind : findSep sep s with
      | none => rfl
      | some p =>
        obtain ⟨b, a⟩ := p
        have hlt := findSep_length_lt hsep hfind
        show b :: splitFuelAux sep n a = b :: splitFuelAux sep m a
        rw [ih m a (by omega) (by omega)]

theorem splitNE_eq (hsep : sep ≠ []) (s : List Char) :
    splitNE sep s =
      match findSep sep s with
      | none => [s]
      | some (b, a) => b :: splitNE sep a := by
  rw [splitNE, splitFuelAux]
  cases hfind : findSep sep s with
  | none => rfl
  | some p =>
    obtain ⟨b, a⟩ := p
    have hlt := findSep_length_lt hsep hfind
    show b :: splitFuelAux sep s.length a = b :: splitNE sep a
    rw [splitNE, splitFuelAux_congr hsep s.length (a.length + 1) a (by omega) (by omega)]

theorem splitNE_of_none {s : List Char} (h : findSep sep s = none) :
    splitNE sep s = [s] := by
  rw [splitNE, splitFuelAux, h]


theorem splitNE_some (hsep : sep ≠ []) {s b a : List Char}
    (h : findSep sep s = some (b, a)) :
    splitNE sep s = b :: splitNE sep a := by
  rw [splitNE_eq hsep s, h]

theorem jsSplit_of_ne (hsep : sep ≠ []) (s : List Char) :
    jsSplit sep s = splitNE sep s := if_neg hsep

theorem getLastD_of_ne_nil {α : Type} {l : List α} (h : l ≠ []) (d1 d2 : α) :
    l.getLastD d1 = l.getLastD d2 := by
  cases l with
  | nil => exact absurd rfl h
  | cons x t => rw [List.getLastD_cons, List.getLastD_cons]

theorem getLastD_mem {α : Type} : ∀ {l : List α}, l ≠ [] → ∀ (d : α), l.getLastD d ∈ l
  | [], h, _ => absurd rfl h
  | [x], _, d => by simp [List.getLastD_cons, List.getLastD]
  | x :: y :: u, _, d => by
    rw [List.getLastD_cons]
    exact List.mem_cons_of_mem x (getLastD_mem (by simp) x)

theorem dropLast_cons_of_ne_nil {α : Type} (x : α) {l : List α} (h : l ≠ []) :
    (x :: l).dropLast = x :: l.dropLast := by
  cases l with
  | nil => exact absurd rfl h
  | cons y u => rfl

theorem getLastD_append {α : Type} {l2 : List α} (h : l2 ≠ []) :
    ∀ (l1 : List α) (d : α), (l1 ++ l2).getLastD d = l2.getLastD d := by
  intro l1
  induction l1 with
  | nil => intro d; rfl
  | cons x t ih =>
    intro d
    rw [List.cons_append, List.getLastD_cons, ih x, getLastD_of_ne_nil h]

theorem splitNE_append (hsep : sep ≠ []) (a b : List Char) :
    splitNE sep (a ++ b) =
      (splitNE sep a).dropLast ++
        splitNE sep ((splitNE sep a).getLastD [] ++ b) := by
  have main : ∀ (n : Nat) (a : List Char), a.length ≤ n → ∀ (b : List Char),
      splitNE sep (a ++ b) =
        (splitNE sep a).dropLast ++
          splitNE sep ((splitNE sep a).getLastD [] ++ b) := by
    intro n
    induction n with
    | zero =>
      intro a ha b
      have ha0 : a = [] := List.length_eq_zero.mp (Nat.le_zero.mp ha)
      subst ha0
      rw [splitNE_of_none (show findSep sep [] = none from rfl)]
      simp
    | succ n ih =>
      intro a ha b
      cases hfind : findSep sep a with
      | none =>
        rw [splitNE_of_none hfind]
        simp
      | some p =>
        obtain ⟨b0, a0⟩ := p
        have hlt := findSep_length_lt hsep hfind
        rw [splitNE_some hsep (findSep_append b hfind)]
        rw [splitNE_some hsep hfind]
        have hne := @splitNE_ne_nil sep a0
        rw [dropLast_cons_of_ne_nil b0 hne, List.getLastD_cons,
          getLastD_of_ne_nil hne b0 []]
        rw [ih a0 (by omega) b]
        simp
  exact main a.length a (le_refl _) b

theorem splitNE_mem_none (hsep : sep ≠ []) :
    ∀ (s p : List Char), p ∈ splitNE sep s → findSep sep p = none := by
  have main : ∀ (n : Nat) (s : List Char), s.length ≤ n →
      ∀ p ∈ splitNE sep s, findSep sep p = none := by
    intro n
    induction n with
    | zero =>
      intro s hs p hp
      have hs0 : s = [] := List.length_eq_zero.mp (Nat.le_zero.mp hs)
      subst hs0
      rw [splitNE_of_none (show findSep sep [] = none from rfl)] at hp
      simp at hp
      subst hp
      rfl
    | succ n ih =>
      intro s hs p hp
      cases hfind : findSep sep s with
      | none =>
        rw [splitNE_of_none hfind] at hp
        simp at hp
        subst hp
        exact hfind
      | some q =>
        obtain ⟨b0, a0⟩ := q
        have hlt := findSep_length_lt hsep hfind
        rw [splitNE_some hsep hfind] at hp
        rcases List.mem_cons.mp hp with hp1 | hp2
        · subst hp1
          exact findSep_none_of_before hfind
        · exact ih a0 (by omega) p hp2
  intro s
  exact main s.length s (le_refl _)

end SplitLemmas

/-- The emission guard of `splitStream`: `(part ?? '').trim() !== ''`. -/
def keepPart (p : List Char) : Bool := decide (jsTrim p ≠ [])

/-- One `transform(chunk, controller)` call of the `TransformStream` built by
`splitStream` (src/combine/splitStream.ts): append the chunk to the buffer,
split on the separator, emit every piece but the last that is not
whitespace-only, and keep the last piece as the new buffer. -/
def splitStreamTransform (sep buffer chunk : List Char) :
    List (List Char) × List Char :=
  ((jsSplit sep (buffer ++ chunk)).dropLast.filter keepPart,
   (jsSplit sep (buffer ++ chunk)).getLastD [])

/-- The `flush(controller)` call of `splitStream`: emit the remaining buffer
when it is not whitespace-only. -/
def splitStreamFlush (buffer : List Char) : List (List Char) :=
  if jsTrim buffer ≠ [] then [buffer] else []

/-- Feeding a list of incoming fragments through `splitStream`'s `transform`,
threading the mutable `buffer` (initially the supplied one): returns the
emitted parts and the final buffer. -/
def processChunks (sep : List Char) : List Char → List (List Char) → List (List Char) × List Char
  | buffer, [] => ([], buffer)
  | buffer, chunk :: rest =>
    ((splitStreamTransform sep buffer chunk).1 ++
       (processChunks sep (splitStreamTransform sep buffer chunk).2 rest).1,
     (processChunks sep (splitStreamTransform sep buffer chunk).2 rest).2)

/-- A complete run of `splitStream` on a fragment sequence: all `transform`
calls starting from the empty buffer, then the end-of-input `flush`. -/
def runSplitter (sep : List Char) (chunks : List (List Char)) : List (List Char) :=
  (processChunks sep [] chunks).1 ++ splitStreamFlush (processChunks sep [] chunks).2

theorem processChunks_eq {sep : List Char} (hsep : sep ≠ []) :
    ∀ (chunks : List (List Char)) (buffer : List Char),
      findSep sep buffer = none →
      processChunks sep buffer chunks =
        ((splitNE sep (buffer ++ chunks.flatten)).dropLast.filter keepPart,
         (splitNE sep (buffer ++ chunks.flatten)).getLastD []) := by
  intro chunks
  induction chunks with
  | nil =>
    intro buffer hb
    rw [processChunks, List.flatten_nil, List.append_nil, splitNE_of_none hb]
    simp
  | cons chunk rest ih =>
    intro buffer hb
    have hne := @splitNE_ne_nil sep (buffer ++ chunk)
    have hb2 : findSep sep ((splitNE sep (buffer ++ chunk)).getLastD []) = none :=
      splitNE_mem_none hsep (buffer ++ chunk) _ (getLastD_mem hne [])
    have hih := ih _ hb2
    rw [processChunks]
    simp only [splitStreamTransform, jsSplit_of_ne hsep]
    rw [hih]
    rw [List.flatten_cons, show buffer ++ (chunk ++ rest.flatten) =
      (buffer ++ chunk) ++ rest.flatten from (List.append_assoc _ _ _).symm]
    rw [splitNE_append hsep (buffer ++ chunk) rest.flatten]
    rw [List.dropLast_append_of_ne_nil _ (splitNE_ne_nil _), List.filter_append]
    rw [getLastD_append (splitNE_ne_nil _)]

theorem jsTrim_eq_nil_iff (s : List Char) :
    jsTrim s = [] ↔ s.all isJsWhitespace = true := by
  rw [jsTrim, List.reverse_eq_nil_iff, List.dropWhile_eq_nil_iff, List.all_eq_true]
  constructor
  · intro h x hx
    have hx2 : x ∈ s.takeWhile isJsWhitespace ++ s.dropWhile isJsWhitespace := by
      rw [List.takeWhile_append_dropWhile]
      exact hx
    rcases List.mem_append.mp hx2 with h1 | h2
    · exact List.mem_takeWhile_imp h1
    · exact h x (List.mem_reverse.mpr h2)
  · intro h x hx
    exact h x ((List.dropWhile_sublist _).subset (List.mem_reverse.mp hx))

/-- Occurrence test used to state the splitter invariant: does `sep` occur
anywhere in `s`? -/
def hasSepOccur (sep s : List Char) : Bool := (findSep sep s).isSome

/-- C4: for every text and every non-empty delimiter, feeding the text into
the splitter as one fragment or as any partition into arbitrarily-sized
fragments yields the same emitted parts (end-of-input flush included). -/
theorem C4_rechunking_invariant (sep : List Char) (hsep : sep ≠ [])
    (chunks : List (List Char)) :
    runSplitter sep chunks = runSplitter sep [chunks.flatten] := by
  rw [runSplitter, runSplitter]
  rw [processChunks_eq hsep chunks [] rfl, processChunks_eq hsep [chunks.flatten] [] rfl]
  simp

theorem C4_rechunking_invariant_witness :
    ("\n\n".data ≠ []) ∧
      runSplitter "\n\n".data ["part1\n".data, "\npart2".data] =
        runSplitter "\n\n".data [(["part1\n".data, "\npart2".data] : List (List Char)).flatten] :=
  ⟨by decide, C4_rechunking_invariant "\n\n".data (by decide) _⟩

/-- C9: every string the splitter emits (mid-stream parts and the flushed
remainder alike) contains no occurrence of the (non-empty) delimiter. -/
theorem C9_emissions_sep_free (sep : List Char) (hsep : sep ≠ [])
    (chunks : List (List Char)) :
    ∀ p ∈ runSplitter sep chunks, hasSepOccur sep p = false := by
  intro p hp
  rw [runSplitter, processChunks_eq hsep chunks [] rfl] at hp
  rcases List.mem_append.mp hp with h1 | h2
  · have h1b := List.mem_of_mem_filter h1
    have h1c : p ∈ splitNE sep ([] ++ chunks.flatten) := List.dropLast_subset _ h1b
    have hnone := splitNE_mem_none hsep _ p h1c
    rw [hasSepOccur, hnone]
    rfl
  · rw [splitStreamFlush] at h2
    split_ifs at h2 with hcond
    · have hpb := List.mem_singleton.mp h2
      subst hpb
      have hmem := getLastD_mem (@splitNE_ne_nil sep ([] ++ chunks.flatten)) ([] : List Char)
      have hnone := splitNE_mem_none hsep _ _ hmem
      rw [hasSepOccur, hnone]
      rfl
    · simp at h2

theorem C9_emissions_sep_free_witness :
    hasSepOccur "\n\n".data "a".data = false :=
  C9_emissions_sep_free "\n\n".data (by decide) ["a\n\nb".data] "a".data (by decide)

/-- C8: at end-of-input the splitter emits the remaining buffer verbatim as a
final part exactly when it is non-empty and not all-whitespace; concretely,
`"part1\n\npart2\n"` yields `["part1", "part2\n"]` (the trailing newline is
kept), while a fully-whitespace remainder is dropped. -/
theorem C8_flush_behavior :
    runSplitter "\n\n".data ["part1\n\npart2\n".data] = ["part1".data, "part2\n".data] ∧
    runSplitter "\n\n".data ["part1\n\n \t ".data] = ["part1".data] ∧
    ∀ b : List Char, splitStreamFlush b = if b.all isJsWhitespace then [] else [b] := by
  refine ⟨by decide, by decide, ?_⟩
  intro b
  rw [splitStreamFlush]
  by_cases hall : b.all isJsWhitespace = true
  · rw [if_pos hall, if_neg (not_not_intro ((jsTrim_eq_nil_iff b).mpr hall))]
  · rw [if_pos (show jsTrim b ≠ [] from fun hnil => hall ((jsTrim_eq_nil_iff b).mp hnil))]
    rw [if_neg hall]

/-- Default stream separator (`'\n\n'`, src/const.ts as documented in
src/core/types.ts). -/
def DEFAULT_STREAM_SEPARATOR : List Char := "\n\n".data

/-- Default part separator (`'\n'`). -/
def DEFAULT_PART_SEPARATOR : List Char := "\n".data

/-- Default key-value separator (`':'`). -/
def DEFAULT_KV_SEPARATOR : List Char := ":".data

/-- One line of `splitPart`'s reducer (example/index.ts):
`sepIndex = line.indexOf(kvSeparator)`; discard on `-1` or whitespace-only
key; otherwise the key is `line.slice(0, sepIndex)` verbatim and the value is
`line.slice(sepIndex + 1).trim()` (note: `+ 1`, not `+ kvSeparator.length`). -/
def parseLineKV (kvSep line : List Char) : Option (List Char × List Char) :=
  match jsIndexOf line kvSep with
  | none => none
  | some i =>
    if jsTrim (line.take i) = [] then none
    else some (line.take i, jsTrim (line.drop (i + 1)))

/-- JavaScript object-spread update `{...acc, [key]: value}`: overwrite in
place if the key exists, append otherwise. -/
def recordInsert (acc : List (List Char × List Char)) (k v : List Char) :
    List (List Char × List Char) :=
  if acc.any (fun q => q.1 = k) then
    acc.map (fun q => if q.1 = k then (k, v) else q)
  else acc ++ [(k, v)]

/-- The `lines.reduce(...)` of `splitPart`, starting from the empty object. -/
def sseReduce (kvSep : List Char) (lines : List (List Char)) :
    List (List Char × List Char) :=
  lines.foldl (fun acc line =>
    match parseLineKV kvSep line with
    | none => acc
    | some kv => recordInsert acc kv.1 kv.2) []

/-- One `transform(partChunk, controller)` call of `splitPart`: split the part
into lines, reduce the lines into one record, and emit the record only when it
has at least one field. -/
def splitPartStep (sep kvSep part : List Char) :
    List (List (List Char × List Char)) :=
  if sseReduce kvSep (jsSplit sep part) ≠ [] then
    [sseReduce kvSep (jsSplit sep part)]
  else []

/-- A complete run of `splitPart` over a sequence of complete parts (the
stage is stateless across parts). -/
def runSplitPart (sep kvSep : List Char) (parts : List (List Char)) :
    List (List (List Char × List Char)) :=
  parts.flatMap (splitPartStep sep kvSep)

/-- The default `XStream` pipeline after text decoding:
`splitStream(STREAM_SEPARATOR)` then `splitPart(PART_SEPARATOR, KV_SEPARATOR)`
(src/core/xstream.ts). -/
def XStreamDefaultPipeline (streamSep partSep kvSep : List Char)
    (textChunks : List (List Char)) : List (List (List Char × List Char)) :=
  runSplitPart partSep kvSep (runSplitter streamSep textChunks)

/-- Spec-side line parse, structured on the first occurrence of the key-value
delimiter: `line = pre ++ kvSep ++ post`, key `pre` verbatim, value the trim
of the text after the first character of the delimiter occurrence. -/
def specParseLine (kvSep line : List Char) : Option (List Char × List Char) :=
  match findSep kvSep line with
  | none => none
  | some (pre, post) =>
    if jsTrim pre = [] then none else some (pre, jsTrim (kvSep.drop 1 ++ post))

/-- The retained key-value pairs of a part, in line order. -/
def retainedPairs (sep kvSep part : List Char) : List (List Char × List Char) :=
  (jsSplit sep part).filterMap (specParseLine kvSep)

/-- Field lookup in a record (keys are unique, so first match is the match). -/
def recLookup (k : List Char) : List (List Char × List Char) → Option (List Char)
  | [] => none
  | q :: rest => if q.1 = k then some q.2 else recLookup k rest

/-- Last-pair-wins lookup in a raw pair list: the value of the last pair
carrying key `k`, the spec's "later pairs overwrite earlier pairs". -/
def lastWins (k : List Char) : List (List Char × List Char) → Option (List Char)
  | [] => none
  | q :: rest =>
    match lastWins k rest with
    | some v => some v
    | none => if q.1 = k then some q.2 else none

/-- Per-part summary of the parser: `some record` when the part contributes at
least one field, `none` otherwise. -/
def partRecordOpt (sep kvSep part : List Char) :
    Option (List (List Char × List Char)) :=
  if sseReduce kvSep (jsSplit sep part) = [] then none
  else some (sseReduce kvSep (jsSplit sep part))

/-- The line shape of claim C10: valid (non-whitespace) key and
empty-or-whitespace text after the first key-value delimiter occurrence. -/
def lineHasValidKeyEmptyTail (kvSep line : List Char) : Bool :=
  match findSep kvSep line with
  | none => false
  | some (pre, post) => decide (jsTrim pre ≠ []) && decide (jsTrim post = [])

theorem parseLine_eq_spec (kvSep line : List Char) :
    parseLineKV kvSep line = specParseLine kvSep line := by
  by_cases hkv : kvSep = []
  · subst hkv
    cases line with
    | nil => rfl
    | cons c rest => rfl
  · simp only [parseLineKV, specParseLine, jsIndexOf, if_neg hkv]
    cases hfind : findSep kvSep line with
    | none => rfl
    | some q =>
      obtain ⟨pre, post⟩ := q
      have hline := findSep_eq_append hfind
      have h1le : 1 ≤ kvSep.length := List.length_pos.mpr hkv
      have htake : line.take pre.length = pre := by
        rw [hline, List.append_assoc, take_append_left pre _ (le_refl pre.length),
          List.take_length]
      have hdrop : line.drop (pre.length + 1) = kvSep.drop 1 ++ post := by
        rw [hline, List.append_assoc, List.drop_append_eq_append_drop,
          List.drop_eq_nil_of_le (Nat.le_succ pre.length),
          show pre.length + 1 - pre.length = 1 by omega, List.nil_append]
        exact drop_append_left kvSep post h1le
      show (if jsTrim (line.take pre.length) = [] then none
            else some (line.take pre.length, jsTrim (line.drop (pre.length + 1)))) =
          (if jsTrim pre = [] then none else some (pre, jsTrim (kvSep.drop 1 ++ post)))
      rw [htake, hdrop]

theorem recLookup_append (k : List Char) (l1 l2 : List (List Char × List Char)) :
    recLookup k (l1 ++ l2) =
      match recLookup k l1 with
      | some v => some v
      | none => recLookup k l2 := by
  induction l1 with
  | nil => rfl
  | cons q rest ih =>
    rw [List.cons_append, recLookup, recLookup]
    by_cases hq : q.1 = k
    · rw [if_pos hq, if_pos hq]
    · rw [if_neg hq, if_neg hq, ih]

theorem recLookup_none_of_any_eq_false {k : List Char}
    {acc : List (List Char × List Char)}
    (h : acc.any (fun q => q.1 = k) = false) : recLookup k acc = none := by
  induction acc with
  | nil => rfl
  | cons q rest ih =>
    rw [List.any_cons, Bool.or_eq_false_iff] at h
    rw [recLookup, if_neg (by simpa using h.1), ih h.2]

theorem recLookup_map_update_ne {k0 k : List Char} (v0 : List Char) (hne : k0 ≠ k) :
    ∀ acc : List (List Char × List Char),
      recLookup k (acc.map (fun q => if q.1 = k0 then (k0, v0) else q)) =
        recLookup k acc := by
  intro acc
  induction acc with
  | nil => rfl
  | cons q rest ih =>
    rw [List.map_cons]
    by_cases hq : q.1 = k0
    · rw [if_pos hq, recLookup, recLookup, if_neg hne, if_neg (hq ▸ hne), ih]
    · rw [if_neg hq, recLookup, recLookup]
      by_cases hqk : q.1 = k
      · rw [if_pos hqk, if_pos hqk]
      · rw [if_neg hqk, if_neg hqk, ih]

theorem recLookup_map_update_eq (k0 v0 : List Char) :
    ∀ acc : List (List Char × List Char), acc.any (fun q => q.1 = k0) = true →
      recLookup k0 (acc.map (fun q => if q.1 = k0 then (k0, v0) else q)) = some v0 := by
  intro acc
  induction acc with
  | nil => intro h; simp at h
  | cons q rest ih =>
    intro h
    rw [List.map_cons]
    by_cases hq : q.1 = k0
    · rw [if_pos hq, recLookup, if_pos rfl]
    · rw [if_neg hq, recLookup, if_neg hq]
      apply ih
      rw [List.any_cons] at h
      simpa [hq] using h

theorem recLookup_insert (acc : List (List Char × List Char)) (k0 v0 k : List Char) :
    recLookup k (recordInsert acc k0 v0) =
      if k0 = k then some v0 else recLookup k acc := by
  rw [recordInsert]
  by_cases hany : acc.any (fun q => q.1 = k0) = true
  · rw [if_pos hany]
    by_cases hk : k0 = k
    · subst hk
      rw [if_pos rfl, recLookup_map_update_eq k0 v0 acc hany]
    · rw [if_neg hk, recLookup_map_update_ne v0 hk]
  · rw [if_neg hany, recLookup_append]
    have hnone0 : recLookup k0 acc = none :=
      recLookup_none_of_any_eq_false (eq_false_of_ne_true hany)
    by_cases hk : k0 = k
    · subst hk
      rw [hnone0]
      simp [recLookup]
    · cases hl : recLookup k acc with
      | none => rw [if_neg hk, recLookup, if_neg hk]; rfl
      | some v => rw [if_neg hk]

theorem lastWins_foldl (k : List Char) :
    ∀ (pairs : List (List Char × List Char)) (acc : List (List Char × List Char)),
      recLookup k (pairs.foldl (fun a q => recordInsert a q.1 q.2) acc) =
        match lastWins k pairs with
        | some v => some v
        | none => recLookup k acc := by
  intro pairs
  induction pairs with
  | nil => intro acc; rfl
  | cons q rest ih =>
    intro acc
    rw [List.foldl_cons, ih, lastWins]
    cases hlw : lastWins k rest with
    | some v => rfl
    | none =>
      show recLookup k (recordInsert acc q.1 q.2) = _
      rw [recLookup_insert]
      by_cases hq : q.1 = k
      · rw [if_pos hq, if_pos hq]
      · rw [if_neg hq, if_neg hq]

theorem recordInsert_ne_nil (acc : List (List Char × List Char)) (k v : List Char) :
    recordInsert acc k v ≠ [] := by
  rw [recordInsert]
  split_ifs with h
  · cases acc with
    | nil => simp at h
    | cons q rest => simp
  · simp

theorem foldl_insert_eq_nil :
    ∀ (pairs acc : List (List Char × List Char)),
      pairs.foldl (fun a q => recordInsert a q.1 q.2) acc = [] ↔
        (pairs = [] ∧ acc = []) := by
  intro pairs
  induction pairs with
  | nil => intro acc; simp
  | cons q rest ih =>
    intro acc
    rw [List.foldl_cons, ih]
    simp [recordInsert_ne_nil]

theorem sseReduce_foldl_pairs (kvSep : List Char) (lines : List (List Char)) :
    sseReduce kvSep lines =
      (lines.filterMap (parseLineKV kvSep)).foldl
        (fun a q => recordInsert a q.1 q.2) [] := by
  rw [sseReduce]
  have aux : ∀ (ls : List (List Char)) (acc : List (List Char × List Char)),
      ls.foldl (fun acc line =>
        match parseLineKV kvSep line with
        | none => acc
        | some kv => recordInsert acc kv.1 kv.2) acc =
      (ls.filterMap (parseLineKV kvSep)).foldl (fun a q => recordInsert a q.1 q.2) acc := by
    intro ls
    induction ls with
    | nil => intro acc; rfl
    | cons line rest ih =>
      intro acc
      rw [List.foldl_cons, List.filterMap_cons]
      cases hp : parseLineKV kvSep line with
      | none => rw [ih]
      | some kv => rw [List.foldl_cons, ih]
  exact aux lines []

theorem retainedPairs_eq (sep kvSep part : List Char) :
    retainedPairs sep kvSep part = (jsSplit sep part).filterMap (parseLineKV kvSep) := by
  rw [retainedPairs,
    show specParseLine kvSep = parseLineKV kvSep from
      funext fun l => (parseLine_eq_spec kvSep l).symm]

theorem sseReduce_eq_retained (sep kvSep part : List Char) :
    sseReduce kvSep (jsSplit sep part) =
      (retainedPairs sep kvSep part).foldl (fun a q => recordInsert a q.1 q.2) [] := by
  rw [retainedPairs_eq, sseReduce_foldl_pairs]

theorem filterMap_all_some_ne_nil {α β : Type} {f : α → Option β} :
    ∀ {l : List α}, l ≠ [] → (∀ x ∈ l, (f x).isSome = true) → l.filterMap f ≠ [] := by
  intro l hl hall
  cases l with
  | nil => exact absurd rfl hl
  | cons x t =>
    have hx := hall x (List.mem_cons_self x t)
    obtain ⟨b, hb⟩ := Option.isSome_iff_exists.mp hx
    rw [List.filterMap_cons, hb]
    simp

theorem recordInsert_vals_nil {acc : List (List Char × List Char)} {k : List Char}
    (h : ∀ q ∈ acc, q.2 = ([] : List Char)) :
    ∀ q ∈ recordInsert acc k [], q.2 = ([] : List Char) := by
  intro q hq
  rw [recordInsert] at hq
  split_ifs at hq with hc
  · obtain ⟨p, hp, hfp⟩ := List.mem_map.mp hq
    by_cases hpk : p.1 = k
    · rw [if_pos hpk] at hfp
      rw [← hfp]
    · rw [if_neg hpk] at hfp
      rw [← hfp]
      exact h p hp
  · rcases List.mem_append.mp hq with h1 | h2
    · exact h q h1
    · have := List.mem_singleton.mp h2
      rw [this]

theorem foldl_insert_vals_nil :
    ∀ (pairs acc : List (List Char × List Char)),
      (∀ q ∈ pairs, q.2 = ([] : List Char)) → (∀ q ∈ acc, q.2 = ([] : List Char)) →
      ∀ q ∈ pairs.foldl (fun a p => recordInsert a p.1 p.2) acc, q.2 = ([] : List Char) := by
  intro pairs
  induction pairs with
  | nil => intro acc _ hacc q hq; exact hacc q hq
  | cons p rest ih =>
    intro acc hpairs hacc q hq
    rw [List.foldl_cons] at hq
    have hp2 : p.2 = ([] : List Char) := hpairs p (List.mem_cons_self p rest)
    refine ih (recordInsert acc p.1 p.2) (fun r hr => hpairs r (List.mem_cons_of_mem p hr)) ?_ q hq
    rw [hp2]
    exact recordInsert_vals_nil hacc

theorem splitPartStep_eq_toList (sep kvSep part : List Char) :
    splitPartStep sep kvSep part = (partRecordOpt sep kvSep part).toList := by
  rw [splitPartStep, partRecordOpt]
  by_cases h : sseReduce kvSep (jsSplit sep part) = []
  · rw [if_neg (not_not_intro h), if_pos h]
    rfl
  · rw [if_pos h, if_neg h]
    rfl

theorem runSplitPart_eq_filterMap (sep kvSep : List Char) :
    ∀ parts : List (List Char),
      runSplitPart sep kvSep parts = parts.filterMap (partRecordOpt sep kvSep) := by
  intro parts
  induction parts with
  | nil => rfl
  | cons p rest ih =>
    rw [runSplitPart, List.flatMap_cons, splitPartStep_eq_toList, List.filterMap_cons]
    rw [show List.flatMap rest (splitPartStep sep kvSep) = runSplitPart sep kvSep rest from rfl, ih]
    cases partRecordOpt sep kvSep p with
    | none => rw [Option.toList, List.nil_append]
    | some r => rw [Option.toList, List.cons_append, List.nil_append]

theorem length_filterMap_eq_length_filter {α β : Type} (f : α → Option β) :
    ∀ l : List α, (l.filterMap f).length = (l.filter (fun x => (f x).isSome)).length := by
  intro l
  induction l with
  | nil => rfl
  | cons x t ih =>
    rw [List.filterMap_cons, List.filter_cons]
    cases hx : f x with
    | none => simp [hx, ih]
    | some b => simp [hx, ih]

/-- C2 counterexample: the decoded text `"hello\n\nworld\n\n"` splits into the
two delimiter-bounded non-whitespace parts `"hello"` and `"world"`, yet the
default pipeline emits zero records (neither part contributes a parseable
key-value pair), refuting "exactly N output records". -/
theorem C2_counterexample :
    runSplitter DEFAULT_STREAM_SEPARATOR ["hello\n\nworld\n\n".data] =
      ["hello".data, "world".data] ∧
    XStreamDefaultPipeline DEFAULT_STREAM_SEPARATOR DEFAULT_PART_SEPARATOR
      DEFAULT_KV_SEPARATOR ["hello\n\nworld\n\n".data] = [] :=
  ⟨by decide, by decide⟩

/-- C2 (amended): the default pipeline emits, in input order, exactly one
record per delimiter-bounded part that contributes at least one parseable
key-value pair — the record computed by the parser for that part — and no
record for parts contributing none; hence the output count equals the number
of parts whose parse is non-empty. -/
theorem C2_amended_pipeline (streamSep partSep kvSep : List Char)
    (chunks : List (List Char)) :
    XStreamDefaultPipeline streamSep partSep kvSep chunks =
      (runSplitter streamSep chunks).filterMap (partRecordOpt partSep kvSep) ∧
    (XStreamDefaultPipeline streamSep partSep kvSep chunks).length =
      ((runSplitter streamSep chunks).filter
        (fun part => (partRecordOpt partSep kvSep part).isSome)).length := by
  have h1 : XStreamDefaultPipeline streamSep partSep kvSep chunks =
      (runSplitter streamSep chunks).filterMap (partRecordOpt partSep kvSep) :=
    runSplitPart_eq_filterMap partSep kvSep (runSplitter streamSep chunks)
  exact ⟨h1, by rw [h1]; exact length_filterMap_eq_length_filter _ _⟩

/-- C5 counterexample: with the two-character key-value delimiter `"=>"`, the
line `"a=>b"` is parsed with value `">b"` (the code slices at `sepIndex + 1`,
one character past the start of the delimiter occurrence), not the substring
`"b"` after the delimiter as the claim states. -/
theorem C5_counterexample :
    splitPartStep "\n".data "=>".data "a=>b".data = [[("a".data, ">b".data)]] ∧
    ">b".data ≠ "b".data :=
  ⟨by decide, by decide⟩

/-- C5 (amended): per line, the first occurrence of the key-value delimiter is
used; lines with no occurrence or a whitespace-only key contribute nothing;
otherwise the field name is the untrimmed text before the occurrence and the
value is the trim of the text after the FIRST CHARACTER of the occurrence
(for a single-character delimiter this is the text after the delimiter).
Retained pairs fold into one record, later pairs overwriting earlier ones with
the same key, and a record is emitted iff at least one pair was retained. -/
theorem C5_parser_semantics (sep kvSep part : List Char) :
    (splitPartStep sep kvSep part = [] ↔ retainedPairs sep kvSep part = []) ∧
    ∀ ev ∈ splitPartStep sep kvSep part, ∀ k,
      recLookup k ev = lastWins k (retainedPairs sep kvSep part) := by
  constructor
  · rw [splitPartStep]
    by_cases h : sseReduce kvSep (jsSplit sep part) = []
    · rw [if_neg (not_not_intro h)]
      constructor
      · intro _
        have h2 := (foldl_insert_eq_nil (retainedPairs sep kvSep part) []).mp
          (sseReduce_eq_retained sep kvSep part ▸ h)
        exact h2.1
      · intro _
        rfl
    · rw [if_pos h]
      constructor
      · intro hc
        exact absurd hc (by simp)
      · intro hr
        exfalso
        apply h
        rw [sseReduce_eq_retained, hr]
        rfl
  · intro ev hev k
    rw [splitPartStep] at hev
    split_ifs at hev with h
    · have hev2 := List.mem_singleton.mp hev
      subst hev2
      rw [sseReduce_eq_retained, lastWins_foldl]
      cases hlw : lastWins k (retainedPairs sep kvSep part) with
      | none => rfl
      | some v => rfl
    · simp at hev

theorem C5_parser_semantics_witness :
    recLookup "data".data [("data".data, "yo".data)] =
      lastWins "data".data
        (retainedPairs "\n".data ":".data "data: hi\ndata: yo".data) :=
  (C5_parser_semantics "\n".data ":".data "data: hi\ndata: yo".data).2
    [("data".data, "yo".data)] (by decide) "data".data

/-- C10 counterexample: with the two-character key-value delimiter `"=>"` and
the line `"a=>"` (valid key, nothing after the delimiter), the emitted field
value is `">"`, not the empty string the claim promises for every parser
configuration. -/
theorem C10_counterexample :
    splitPartStep "\n".data "=>".data "a=>".data = [[("a".data, ">".data)]] ∧
    ">".data ≠ ([] : List Char) :=
  ⟨by decide, by decide⟩

/-- C10 (amended): restricted to key-value delimiters whose characters after
the first are all whitespace (in particular the single-character default
`":"`): a line with a valid key and empty-or-whitespace text after the first
delimiter occurrence contributes its key mapped to the empty string, and a
non-empty list of lines all of that shape emits a record (with every field
value empty). -/
theorem C10_empty_value_fields (sep kvSep part : List Char)
    (hkv : jsTrim (kvSep.drop 1) = [])
    (hlines : ∀ line ∈ jsSplit sep part, lineHasValidKeyEmptyTail kvSep line = true)
    (hne : jsSplit sep part ≠ []) :
    ∃ ev, splitPartStep sep kvSep part = [ev] ∧ ev ≠ [] ∧
      ∀ q ∈ ev, q.2 = ([] : List Char) := by
  have hsome : ∀ line ∈ jsSplit sep part,
      ∃ pre, specParseLine kvSep line = some (pre, []) := by
    intro line hl
    have hpred := hlines line hl
    rw [lineHasValidKeyEmptyTail] at hpred
    cases hfind : findSep kvSep line with
    | none => rw [hfind] at hpred; simp at hpred
    | some q =>
      obtain ⟨pre, post⟩ := q
      rw [hfind] at hpred
      simp only [Bool.and_eq_true, decide_eq_true_eq] at hpred
      obtain ⟨hpre, hpost⟩ := hpred
      refine ⟨pre, ?_⟩
      have hval : jsTrim (kvSep.drop 1 ++ post) = [] := by
        rw [jsTrim_eq_nil_iff] at hkv hpost ⊢
        rw [List.all_append, hkv, hpost]
        rfl
      simp only [specParseLine, hfind, if_neg hpre, hval]
  have hretne : retainedPairs sep kvSep part ≠ [] := by
    rw [retainedPairs]
    refine filterMap_all_some_ne_nil hne ?_
    intro x hx
    obtain ⟨pre, hp⟩ := hsome x hx
    rw [hp]
    rfl
  have hretvals : ∀ q ∈ retainedPairs sep kvSep part, q.2 = ([] : List Char) := by
    intro q hq
    rw [retainedPairs] at hq
    obtain ⟨line, hline, hpl⟩ := List.mem_filterMap.mp hq
    obtain ⟨pre, hp⟩ := hsome line hline
    rw [hp] at hpl
    injection hpl with h2
    rw [← h2]
  have hred : sseReduce kvSep (jsSplit sep part) ≠ [] := by
    rw [sseReduce_eq_retained]
    intro hc
    exact hretne ((foldl_insert_eq_nil _ []).mp hc).1
  refine ⟨sseReduce kvSep (jsSplit sep part), ?_, hred, ?_⟩
  · rw [splitPartStep, if_pos hred]
  · intro q hq
    rw [sseReduce_eq_retained] at hq
    refine foldl_insert_vals_nil _ [] hretvals ?_ q hq
    intro r hr
    simp at hr

theorem C10_empty_value_fields_witness :
    ∃ ev, splitPartStep "\n".data ":".data "data:\nid:  ".data = [ev] ∧ ev ≠ [] ∧
      ∀ q ∈ ev, q.2 = ([] : List Char) :=
  C10_empty_value_fields "\n".data ":".data "data:\nid:  ".data
    (by decide) (by decide) (by decide)

/-- Observable events of one iteration session of the wrapper installed by
`XStream` (src/core/xstream.ts): lifecycle callback invocations
(`onSSEStart`, `onSSEOutput`, `onSSEComplete`, `onSSEAbort`, `onSSEError`),
values yielded to the consumer, the cancellation request sent to the source
(`reader.cancel()`), and the lock release (`reader.releaseLock()`). -/
inductive StreamEv (α ε : Type) where
  | start : StreamEv α ε
  | output (v : α) : StreamEv α ε
  | yieldVal (v : α) : StreamEv α ε
  | complete : StreamEv α ε
  | abortCb : StreamEv α ε
  | errCb (e : ε) : StreamEv α ε
  | cancelSrc : StreamEv α ε
  | releaseLock : StreamEv α ε
  deriving DecidableEq

/-- How the underlying stream terminates after its values: the reader's final
`read()` resolves `done` (stream closed) or rejects with an error. -/
inductive EndBehavior (ε : Type) where
  | complete : EndBehavior ε
  | error (e : ε) : EndBehavior ε
  deriving DecidableEq

/-- The `while (true)` loop of the async generator: at each step the abort
signal is checked first (`signal?.aborted`); if set, `reader.cancel()` then
`onSSEAbort` then `break`. Otherwise one `reader.read()` is awaited: the next
value if any remain, else the stream's end behavior (`done`, or a rejection
which escapes the loop — second component).  A produced value fires
`onSSEOutput` and is yielded only when it passes the `if (value)` truthiness
guard, modelled by the `truthy` parameter. Callbacks and `cancel()` are
assumed not to throw; the consumer drains the generator fully. -/
def xstreamLoop {α ε : Type} (truthy : α → Bool) (signal : Nat → Bool)
    (ending : EndBehavior ε) : Nat → List α → List (StreamEv α ε) × Option ε
  | step, [] =>
    if signal step then ([StreamEv.cancelSrc, StreamEv.abortCb], none)
    else
      match ending with
      | EndBehavior.complete => ([StreamEv.complete], none)
      | EndBehavior.error e => ([], some e)
  | step, v :: rest =>
    if signal step then ([StreamEv.cancelSrc, StreamEv.abortCb], none)
    else
      ((if truthy v then [StreamEv.output v, StreamEv.yieldVal v] else []) ++
         (xstreamLoop truthy signal ending (step + 1) rest).1,
       (xstreamLoop truthy signal ending (step + 1) rest).2)

/-- One full iteration session of the `XStream` wrapper:
`try { onSSEStart?.(); while ... } catch (error) { onSSEError?.(error) }
finally { reader.releaseLock() }`.  The second component is the exception
escaping to the consumer's for-await loop: the `catch` block reports the
error via the callback and does not re-throw, so nothing escapes. -/
def runXStream {α ε : Type} (truthy : α → Bool) (signal : Nat → Bool)
    (values : List α) (ending : EndBehavior ε) : List (StreamEv α ε) × Option ε :=
  match (xstreamLoop truthy signal ending 0 values).2 with
  | none =>
    (StreamEv.start :: ((xstreamLoop truthy signal ending 0 values).1 ++
      [StreamEv.releaseLock]), none)
  | some e =>
    (StreamEv.start :: ((xstreamLoop truthy signal ending 0 values).1 ++
      [StreamEv.errCb e, StreamEv.releaseLock]), none)

/-- The output/yield event sequence of an undisturbed run: truthy values fire
the output callback and are yielded, falsy values are skipped. -/
def emitTrace {α ε : Type} (truthy : α → Bool) (values : List α) :
    List (StreamEv α ε) :=
  values.flatMap (fun v =>
    if truthy v then [StreamEv.output v, StreamEv.yieldVal v] else [])

/-- Is this event an error-callback invocation? -/
def isErrEv {α ε : Type} : StreamEv α ε → Bool
  | StreamEv.errCb _ => true
  | _ => false

theorem xstreamLoop_no_signal {α ε : Type} (truthy : α → Bool)
    (signal : Nat → Bool) (ending : EndBehavior ε) :
    ∀ (values : List α) (step : Nat),
      (∀ i, step ≤ i → i ≤ step + values.length → signal i = false) →
      xstreamLoop truthy signal ending step values =
        (emitTrace truthy values ++
          (match ending with
           | EndBehavior.complete => [StreamEv.complete]
           | EndBehavior.error _ => []),
         match ending with
         | EndBehavior.complete => none
         | EndBehavior.error e => some e) := by
  intro values
  induction values with
  | nil =>
    intro step hs
    have h0 : signal step = false := hs step (le_refl _) (by omega)
    simp only [xstreamLoop]
    rw [if_neg (by simp [h0])]
    cases ending with
    | complete => simp [emitTrace]
    | error e => simp [emitTrace]
  | cons v rest ih =>
    intro step hs
    have h0 : signal step = false := hs step (le_refl _) (by simp)
    simp only [xstreamLoop]
    rw [if_neg (by simp [h0])]
    rw [ih (step + 1) (fun i h1 h2 => hs i (by omega) (by
      simp only [List.length_cons]
      omega))]
    cases ending with
    | complete => simp [emitTrace, List.flatMap_cons, List.append_assoc]
    | error e => simp [emitTrace, List.flatMap_cons, List.append_assoc]

theorem emitTrace_no_err {α ε : Type} (truthy : α → Bool) (values : List α) :
    ∀ x ∈ @emitTrace α ε truthy values, isErrEv x = false := by
  intro x hx
  rw [emitTrace] at hx
  obtain ⟨v, _, hx2⟩ := List.mem_flatMap.mp hx
  split_ifs at hx2
  · rcases List.mem_cons.mp hx2 with h | h
    · rw [h]; rfl
    · rw [List.mem_singleton.mp h]; rfl
  · simp at hx2

/-- C1 counterexample: the very first pull rejects with error `42`.  The error
callback fires exactly once and the lock is released, but the run's
escaping-exception component is `none` — the generator's `catch` block does
not re-throw, so the consumer's for-await loop ends without failing,
refuting "the error then propagates to the consumer's iteration". -/
theorem C1_counterexample :
    runXStream (fun _ : Nat => true) (fun _ => false) ([] : List Nat)
      (EndBehavior.error 42) =
      ([StreamEv.start, StreamEv.errCb 42, StreamEv.releaseLock],
        (none : Option Nat)) := by
  decide

/-- C1 (amended): in every session whose pull errors (no cancellation
beforehand), the error callback is invoked with that error exactly once,
after all outputs; the lock is released; and the iteration then completes
WITHOUT re-raising — the escaping-exception component is `none`, so the
consumer's loop ends normally instead of failing. -/
theorem C1_error_swallowed {α ε : Type} (truthy : α → Bool)
    (signal : Nat → Bool) (values : List α) (e : ε)
    (hs : ∀ i, i ≤ values.length → signal i = false) :
    runXStream truthy signal values (EndBehavior.error e) =
      (StreamEv.start :: (emitTrace truthy values ++
        [StreamEv.errCb e, StreamEv.releaseLock]), none) ∧
    (runXStream truthy signal values (EndBehavior.error e)).1.filter isErrEv =
      [StreamEv.errCb e] := by
  have hloop := xstreamLoop_no_signal truthy signal (EndBehavior.error e)
    values 0 (fun i _ h2 => hs i (by omega))
  have h1 : runXStream truthy signal values (EndBehavior.error e) =
      (StreamEv.start :: (emitTrace truthy values ++
        [StreamEv.errCb e, StreamEv.releaseLock]), none) := by
    rw [runXStream, hloop]
    simp
  refine ⟨h1, ?_⟩
  rw [h1]
  show List.filter isErrEv (StreamEv.start :: (emitTrace truthy values ++
    [StreamEv.errCb e, StreamEv.releaseLock])) = [StreamEv.errCb e]
  rw [List.filter_cons, if_neg (by simp [isErrEv]), List.filter_append]
  rw [List.filter_eq_nil_iff.mpr (by
    intro x hx
    simp [emitTrace_no_err truthy values x hx])]
  rfl

theorem C1_error_swallowed_witness :
    (runXStream (fun _ : Nat => true) (fun _ => false) [5] (EndBehavior.error 7) =
      (StreamEv.start :: (emitTrace (fun _ : Nat => true) [5] ++
        [StreamEv.errCb 7, StreamEv.releaseLock]), none)) ∧
    (runXStream (fun _ : Nat => true) (fun _ => false) [5]
      (EndBehavior.error 7)).1.filter isErrEv = [StreamEv.errCb 7] :=
  C1_error_swallowed (fun _ => true) (fun _ => false) [5] 7 (fun _ _ => rfl)

/-- C3 counterexample: a custom transform produces the empty string, a
perfectly valid value of the final stage.  JavaScript's `if (value)` guard
treats it as falsy: no output callback fires and nothing is yielded — the run
is `[start, complete, releaseLock]` — refuting the claim that every produced
value (an empty string included) is reported and yielded. -/
theorem C3_counterexample :
    runXStream (fun s : List Char => !s.isEmpty) (fun _ => false)
      [([] : List Char)] (EndBehavior.complete : EndBehavior Unit) =
      ([StreamEv.start, StreamEv.complete, StreamEv.releaseLock], none) := by
  decide

/-- C3 (amended): during an undisturbed iteration, each value produced by the
final stage that passes JavaScript's truthiness test fires the output
callback and is then yielded, in order, before the terminal events; each
falsy value (such as the empty string) is silently skipped — no callback, no
yield — while iteration continues. -/
theorem C3_truthy_output_yield {α ε : Type} (truthy : α → Bool)
    (values : List α) (ending : EndBehavior ε) :
    (runXStream truthy (fun _ => false) values ending).1 =
      StreamEv.start ::
        (emitTrace truthy values ++
          (match ending with
           | EndBehavior.complete => [StreamEv.complete, StreamEv.releaseLock]
           | EndBehavior.error e => [StreamEv.errCb e, StreamEv.releaseLock])) := by
  have hloop := xstreamLoop_no_signal truthy (fun _ => false) ending
    values 0 (fun i _ _ => rfl)
  rw [runXStream, hloop]
  cases ending with
  | complete => simp
  | error e => simp

/-- C6: in every fully drained session, the trace is exactly `start`, then a
middle of output/yield events, then one terminal — `complete`, or
`cancel`+`abort`, or one error callback — then the lock release.  Hence start
precedes every output; every output precedes `complete`; `abort` excludes
`complete`; `error` excludes both; and after the terminal callback no further
value or callback events occur. -/
theorem C6_lifecycle_order {α ε : Type} (truthy : α → Bool)
    (signal : Nat → Bool) (values : List α) (ending : EndBehavior ε) :
    ∃ middle term,
      (runXStream truthy signal values ending).1 =
        StreamEv.start :: (middle ++ term ++ [StreamEv.releaseLock]) ∧
      (∀ x ∈ middle,
        (∃ v, x = StreamEv.output v) ∨ (∃ v, x = StreamEv.yieldVal v)) ∧
      (term = [StreamEv.complete] ∨
        term = [StreamEv.cancelSrc, StreamEv.abortCb] ∨
        ∃ e, term = [StreamEv.errCb e]) := by
  have main : ∀ (vs : List α) (step : Nat), ∃ middle,
      (∀ x ∈ middle,
        (∃ v, x = StreamEv.output v) ∨ (∃ v, x = StreamEv.yieldVal v)) ∧
      ((xstreamLoop truthy signal ending step vs =
          (middle ++ [StreamEv.complete], none)) ∨
       (xstreamLoop truthy signal ending step vs =
          (middle ++ [StreamEv.cancelSrc, StreamEv.abortCb], none)) ∨
       (∃ e, xstreamLoop truthy signal ending step vs = (middle, some e))) := by
    intro vs
    induction vs with
    | nil =>
      intro step
      by_cases hsig : signal step = true
      · refine ⟨[], by simp, Or.inr (Or.inl ?_)⟩
        simp only [xstreamLoop]
        rw [if_pos hsig]
        rfl
      · cases hend : ending with
        | complete =>
          refine ⟨[], by simp, Or.inl ?_⟩
          simp only [xstreamLoop]
          rw [if_neg hsig]
          rfl
        | error e =>
          refine ⟨[], by simp, Or.inr (Or.inr ⟨e, ?_⟩)⟩
          simp only [xstreamLoop]
          rw [if_neg hsig]
    | cons v rest ih =>
      intro step
      by_cases hsig : signal step = true
      · refine ⟨[], by simp, Or.inr (Or.inl ?_)⟩
        simp only [xstreamLoop]
        rw [if_pos hsig]
        rfl
      · obtain ⟨mid, hmid, hcase⟩ := ih (step + 1)
        refine ⟨(if truthy v then [StreamEv.output v, StreamEv.yieldVal v]
          else []) ++ mid, ?_, ?_⟩
        · intro x hx
          rcases List.mem_append.mp hx with h1 | h2
          · by_cases ht : truthy v = true
            · rw [if_pos ht] at h1
              rcases List.mem_cons.mp h1 with h | h
              · exact Or.inl ⟨v, h⟩
              · exact Or.inr ⟨v, List.mem_singleton.mp h⟩
            · rw [if_neg ht] at h1
              simp at h1
          · exact hmid x h2
        · rcases hcase with h | h | ⟨e, h⟩
          · refine Or.inl ?_
            simp only [xstreamLoop]
            rw [if_neg hsig, h]
            simp [List.append_assoc]
          · refine Or.inr (Or.inl ?_)
            simp only [xstreamLoop]
            rw [if_neg hsig, h]
            simp [List.append_assoc]
          · refine Or.inr (Or.inr ⟨e, ?_⟩)
            simp only [xstreamLoop]
            rw [if_neg hsig, h]
  obtain ⟨mid, hmid, hcase⟩ := main values 0
  rcases hcase with h | h | ⟨e, h⟩
  · refine ⟨mid, [StreamEv.complete], ?_, hmid, Or.inl rfl⟩
    rw [runXStream, h]
  · refine ⟨mid, [StreamEv.cancelSrc, StreamEv.abortCb], ?_, hmid,
      Or.inr (Or.inl rfl)⟩
    rw [runXStream, h]
  · refine ⟨mid, [StreamEv.errCb e], ?_, hmid, Or.inr (Or.inr ⟨e, rfl⟩)⟩
    rw [runXStream, h]
    simp

theorem C6_lifecycle_order_witness :
    ∃ middle term,
      (runXStream (fun _ : Nat => true) (fun _ => false) [3]
        (EndBehavior.complete : EndBehavior Nat)).1 =
        StreamEv.start :: (middle ++ term ++ [StreamEv.releaseLock]) ∧
      (∀ x ∈ middle,
        (∃ v, x = StreamEv.output v) ∨ (∃ v, x = StreamEv.yieldVal v)) ∧
      (term = [StreamEv.complete] ∨
        term = [StreamEv.cancelSrc, StreamEv.abortCb] ∨
        ∃ e, term = [StreamEv.errCb e]) :=
  C6_lifecycle_order (fun _ => true) (fun _ => false) [3] EndBehavior.complete

/-- C7: when the cancellation signal is already set before the first pull, the
session is exactly `start`, a cancellation request to the source, one abort
callback, and the lock release: zero output records, one abort, cancel
issued. -/
theorem C7_pre_signaled_abort {α ε : Type} (truthy : α → Bool)
    (signal : Nat → Bool) (values : List α) (ending : EndBehavior ε)
    (h0 : signal 0 = true) :
    runXStream truthy signal values ending =
      ([StreamEv.start, StreamEv.cancelSrc, StreamEv.abortCb,
        StreamEv.releaseLock], none) := by
  have hloop : xstreamLoop truthy signal ending 0 values =
      ([StreamEv.cancelSrc, StreamEv.abortCb], none) := by
    cases values with
    | nil =>
      simp only [xstreamLoop]
      rw [if_pos h0]
    | cons v rest =>
      simp only [xstreamLoop]
      rw [if_pos h0]
  rw [runXStream, hloop]
  rfl

theorem C7_pre_signaled_abort_witness :
    runXStream (fun _ : Nat => true) (fun _ => true) [1, 2]
      (EndBehavior.complete : EndBehavior Nat) =
      ([StreamEv.start, StreamEv.cancelSrc, StreamEv.abortCb,
        StreamEv.releaseLock], none) :=
  C7_pre_signaled_abort (fun _ => true) (fun _ => true) [1, 2]
    EndBehavior.complete rfl
